import Mathlib

/-!
Shallow embedding of the semantic core of `gdb-devtools`: the line
segmenter and tokenizer (`src/src/iters.rs`), the recursive-descent parser
(`src/language_model/src/parse.rs`), and the semantic index `Semantics`
(`src/language_model/src/lib.rs`) with its `set_file_text`,
`find_definition` and `find_completions` operations, together with
theorems settling the specification claims.

Texts and paths are modelled as `List Char` (the scripts involved are
ASCII, so Rust's byte columns coincide with character columns).
-/

namespace GdbDevtools

/-- The ASCII/Latin-1 fragment of Rust's `char::is_whitespace`
(Unicode `White_Space`).  The scripts appearing in the specification and
in the claims are ASCII, so the code points above U+00A0 are irrelevant
and omitted. -/
def is_whitespace (c : Char) : Bool :=
  c = ' ' || c = '\t' || c = '\n' || c = '\x0b' || c = '\x0c' || c = '\r'
    || c = '\x85' || c = '\xa0'

/-- Model of `Location` from `src/language_model/src/parse.rs`: a line/column
position in a file. -/
structure Location where
  line : Nat
  column : Nat
  deriving DecidableEq, Repr

/-- Model of `Token` from `src/language_model/src/parse.rs`: a run of
non-whitespace characters together with the position of its start. -/
structure Token where
  text : List Char
  location_in_file : Location
  deriving DecidableEq, Repr

/-- Model of `CommandLine` from `src/language_model/src/parse.rs`: one logical GDB
command line, which covers one or more physical lines of the script,
together with the line number at which it starts. -/
structure CommandLine where
  text : List Char
  start_line_in_file : Nat
  deriving DecidableEq, Repr

/-- The loop body of `lines` in `src/src/iters.rs`.  `cur` is the text
accumulated since `span_start`, `ln` is `line_number` and `escaped` the
escape flag.  An unescaped newline closes the current command line (the
newline itself is part of the emitted text, mirroring `index + 1` in the
span); the flag is set exactly when the previous character was a
backslash.  The trailing `if span_start < text.len()` push corresponds to
the nonempty-`cur` case at the end of input. -/
def linesAux : List Char → List Char → Nat → Bool → List CommandLine
  | [], cur, ln, _ =>
      if cur = [] then [] else [⟨cur, ln⟩]
  | c :: rest, cur, ln, escaped =>
      if c = '\n' ∧ escaped = false then
        ⟨cur ++ [c], ln⟩ :: linesAux rest [] (ln + 1) (c = '\\')
      else
        linesAux rest (cur ++ [c]) ln (c = '\\')

/-- Model of `lines` from `src/src/iters.rs`: split a script into logical command
lines, merging a physical line whose newline is preceded by a backslash
into the following one. -/
def lines (text : List Char) : List CommandLine :=
  linesAux text [] 0 false

/-- Modelled from the spec: the `iters` module of the `language_model`
crate (declared `pub mod iters;` in `src/language_model/src/parse.rs`) is
not present under `src/`.  On nonempty input it implements the same
algorithm as the sibling `src/src/iters.rs` (spec §4.1); on empty input it
yields a single empty logical line starting at line 0, which is required
by spec §8 ("Completion at an empty script returns `built_in =
[define,if,else,end]`") and by the `empty_script` unit test of
`src/language_model/src/completions.rs`. -/
def lm_lines (text : List Char) : List CommandLine :=
  if text = [] then [⟨[], 0⟩] else lines text

/-- Model of `text[a..b]` on a character list. -/
def listSlice (l : List Char) (a b : Nat) : List Char :=
  (l.take b).drop a

/-- The loop of `tokens` in `src/src/iters.rs`, over the indexed
characters of the line that remain after the leading whitespace.  State:
`span_start` (start index of the token being scanned), `cw`
(`currently_in_whitespace`), `escaped`, `lsc` (`line_start_column`), and
`ln` (`line_number` within the logical line).  An escaped newline resets
the column origin and bumps the line counter without closing a token scan
(the `continue` in the source); any other whitespace character closes the
pending token.  The final push outside the loop corresponds to the
end-of-list case with `cw = false`. -/
def tokensAux (full : List Char) (startLine : Nat) :
    List (Nat × Char) → Nat → Bool → Bool → Nat → Nat → List Token
  | [], span_start, cw, _, lsc, ln =>
      if cw then []
      else [⟨full.drop span_start, ⟨startLine + ln, span_start - lsc⟩⟩]
  | (i, c) :: rest, span_start, cw, escaped, lsc, ln =>
      if c = '\n' ∧ escaped = true then
        tokensAux full startLine rest span_start true false (i + 1) (ln + 1)
      else if is_whitespace c then
        (if cw then ([] : List Token)
         else [⟨listSlice full span_start i, ⟨startLine + ln, span_start - lsc⟩⟩])
          ++ tokensAux full startLine rest span_start true (c = '\\') lsc ln
      else
        tokensAux full startLine rest (if cw then i else span_start) false
          (c = '\\') lsc ln

/-- Model of `tokens` from `src/src/iters.rs`: the whitespace-delimited tokens of a
logical command line, positioned in the file; also the model of the
tokenizer of the absent `language_model` `iters` module (spec §4.2), whose
output sequence is the same. -/
def tokens (line : CommandLine) : List Token :=
  match line.text.findIdx? (fun c => !is_whitespace c) with
  | none => []
  | some span_start =>
      tokensAux line.text line.start_line_in_file
        ((line.text.enum).dropWhile (fun p => is_whitespace p.2))
        span_start false false 0 0

/-- Model of `Command` from `src/language_model/src/parse.rs`: a parsed statement —
a `define … end` block (identifier and terminating `end` token optional,
to tolerate in-progress edits), a `source` inclusion directive, or a
generic command with arguments. -/
inductive Command where
  | define (define_tok : Token) (identifier : Option Token)
      (body : List Command) (end_tok : Option Token)
  | source (source_tok : Token) (file_path : Option Token)
  | other (command : Token) (args : List Token)
  deriving Repr

/-- Model of `parse_until` from `src/language_model/src/parse.rs`.  The Rust
function drains a shared line iterator; here the iterator is an explicit
list, the third component of the result being the lines left unconsumed.
`fuel` bounds the number of loop iterations across all nesting levels and
only totalises the recursion: every iteration consumes one line, so the
budget `(lines input).length` supplied by `parse` is never exhausted.
The `end` token of a `define` is the first token of the terminating line
(the source `unwrap` is rendered via `Option.head?`; a theorem below
shows the terminating line always has a first token, and it is `end`). -/
def parse_until : Nat → List CommandLine → Bool →
    List Command × Option CommandLine × List CommandLine
  | 0, input, _ => ([], none, input)
  | _ + 1, [], _ => ([], none, [])
  | fuel + 1, line :: rest, until_end =>
    match tokens line with
    | [] => parse_until fuel rest until_end
    | tok :: toks =>
      if tok.text = "define".toList then
        let r1 := parse_until fuel rest true
        let cmd := Command.define tok toks.head? r1.1
          (match r1.2.1 with
           | none => none
           | some end_line => (tokens end_line).head?)
        let r2 := parse_until fuel r1.2.2 until_end
        (cmd :: r2.1, r2.2.1, r2.2.2)
      else if tok.text = "end".toList then
        if until_end then ([], some line, rest)
        else parse_until fuel rest until_end
      else if tok.text = "source".toList then
        let r2 := parse_until fuel rest until_end
        (Command.source tok toks.head? :: r2.1, r2.2.1, r2.2.2)
      else
        let r2 := parse_until fuel rest until_end
        (Command.other tok toks :: r2.1, r2.2.1, r2.2.2)

/-- Model of `parse` from `src/language_model/src/parse.rs`: the top-level command
sequence of a script. -/
def parse (input : List Char) : List Command :=
  (parse_until (lm_lines input).length (lm_lines input) false).1

/-- Model of `Token::is_at_location` from `src/language_model/src/parse.rs`: the
location lies on the token's line, at or after its first column and
strictly before its end column. -/
def Token.is_at_location (t : Token) (loc : Location) : Bool :=
  loc.line = t.location_in_file.line
    && loc.column ≥ t.location_in_file.column
    && loc.column < t.location_in_file.column + t.text.length

/-- Model of `CursorPosition` from `src/language_model/src/lib.rs`. -/
structure CursorPosition where
  file : List Char
  line : Nat
  column : Nat
  deriving DecidableEq, Repr

/-- The `Semantics` state from `src/language_model/src/lib.rs`: the
project root used to canonicalize relative `source` paths, and the table
of known files.  The `HashMap` is modelled as an association list with
unique keys (maintained by `insertFile`); only key lookup is observable. -/
structure Semantics where
  project_root : List Char
  files : List (List Char × List Char)

/-- Model of `HashMap::get` / `get_key_value`: the text stored for a path.  With
association-list keys compared by equality, the stored key returned by
`get_key_value` is the queried key itself. -/
def lookupFile (files : List (List Char × List Char)) (path : List Char) :
    Option (List Char) :=
  (files.find? (fun kv => kv.1 = path)).map (·.2)

/-- Model of `HashMap::insert`: replace any existing binding of `path`. -/
def insertFile (files : List (List Char × List Char))
    (path text : List Char) : List (List Char × List Char) :=
  (path, text) :: files.filter (fun kv => ¬ kv.1 = path)

/-- Model of `Path::is_relative` (Unix): a path is relative iff it does not start
with `/`. -/
def isRelative (p : List Char) : Bool :=
  match p with
  | [] => true
  | c :: _ => c ≠ '/'

/-- Model of `PathBuf::join` with a relative right operand (Unix `push`): an empty
left side yields the right side; otherwise the two are joined with a
separator unless one is already present. -/
def joinPath (root p : List Char) : List Char :=
  if root = [] then p
  else if root.getLast? = some '/' then root ++ p
  else root ++ '/' :: p

/-- Model of `Semantics::canonicalize_path` from `src/language_model/src/lib.rs`:
a relative path is joined onto the project root, an absolute one is used
as-is. -/
def canonicalize_path (root p : List Char) : List Char :=
  if isRelative p then joinPath root p else p

/-- Model of `Semantics::set_file_text` from `src/language_model/src/lib.rs`:
store `text` under `path` and return the `source` targets of the *new*
text that are not yet known.  Note the membership test uses the raw
`file_path` text while the returned entry is the canonicalized form,
exactly as in the source. -/
def set_file_text (sem : Semantics) (path text : List Char) :
    Semantics × List (List Char) :=
  let unresolved := (parse text).filterMap (fun c =>
    match c with
    | Command.source _ (some fp) =>
        if (lookupFile sem.files fp.text).isSome then none
        else some (canonicalize_path sem.project_root fp.text)
    | _ => none)
  (⟨sem.project_root, insertFile sem.files path text⟩, unresolved)

/-- The body of the `find_map` closure of
`Semantics::find_definition_in`: a `Define` with a matching identifier
resolves to the identifier's position unless a line limit is given and
the `define` keyword's line is at or below it; a `Source` with a file
path recurses (`recurse` is the recursive call, at the already
canonicalized path); everything else yields no result.  The outer
`Option` is the fuel-totalisation of `find_definition_in`: `none` means
the recursion did not finish within the fuel. -/
def resolve_step (recurse : List Char → Option (Option CursorPosition))
    (root script_path identifier : List Char) (line_limit : Option Nat)
    (cmd : Command) : Option (Option CursorPosition) :=
  match cmd with
  | Command.define define_tok (some defined_identifier) _ _ =>
      if defined_identifier.text = identifier then
        match line_limit with
        | some ll =>
            if define_tok.location_in_file.line ≥ ll then some none
            else some (some ⟨script_path,
              defined_identifier.location_in_file.line,
              defined_identifier.location_in_file.column⟩)
        | none => some (some ⟨script_path,
            defined_identifier.location_in_file.line,
            defined_identifier.location_in_file.column⟩)
      else some none
  | Command.source _ (some file_path) =>
      recurse (canonicalize_path root file_path.text)
  | _ => some none

/-- Model of `Iterator::find_map` over the commands, in the fuel-totalised result
type: `some none` continues the scan, `some (some p)` stops with a hit,
and `none` (fuel ran out inside a step) aborts the whole scan. -/
def scan_commands (step : Command → Option (Option CursorPosition)) :
    List Command → Option (Option CursorPosition)
  | [] => some none
  | cmd :: rest =>
    match step cmd with
    | none => none
    | some (some p) => some (some p)
    | some none => scan_commands step rest

/-- Model of `Semantics::find_definition_in` from `src/language_model/src/lib.rs`:
parse the file stored at `script_path` and scan its top-level commands in
reverse source order with `resolve_step`, recursing into `source`d files
with no line limit.  The Rust recursion has no cycle protection, so it is
totalised by `fuel`, decremented on each file entered; `none` means the
computation did not finish within `fuel`. -/
def find_definition_in (files : List (List Char × List Char))
    (root identifier : List Char) :
    Nat → List Char → Option Nat → Option (Option CursorPosition)
  | 0, _, _ => none
  | fuel + 1, script_path, line_limit =>
    match lookupFile files script_path with
    | none => some none
    | some script =>
        scan_commands
          (resolve_step
            (fun p => find_definition_in files root identifier fuel p none)
            root script_path identifier line_limit)
          (parse script).reverse

/-- Model of `Semantics::find_definition` from `src/language_model/src/lib.rs`:
find the token under the cursor in the logical line whose start line
equals the cursor line, then resolve its text with the cursor line as
limit.  `fuel` is passed through to `find_definition_in`. -/
def find_definition (sem : Semantics) (fuel : Nat)
    (pos : CursorPosition) : Option (Option CursorPosition) :=
  match lookupFile sem.files pos.file with
  | none => some none
  | some script =>
    match (lm_lines script).find?
        (fun l => l.start_line_in_file = pos.line) with
    | none => some none
    | some line =>
      match (tokens line).find?
          (fun t => t.is_at_location ⟨pos.line, pos.column⟩) with
      | none => some none
      | some token =>
          find_definition_in sem.files sem.project_root token.text fuel
            pos.file (some pos.line)

/-- The call `find_definition` returns `r`: some fuel budget suffices for
the Rust recursion to finish with result `r`. -/
def find_definition_result (sem : Semantics) (pos : CursorPosition)
    (r : Option CursorPosition) : Prop :=
  ∃ fuel, find_definition sem fuel pos = some r

/-- The call `find_definition` runs to completion (with whatever
result). -/
def find_definition_terminates (sem : Semantics)
    (pos : CursorPosition) : Prop :=
  ∃ fuel r, find_definition sem fuel pos = some r

/-- Model of `CompletionPosition` from `src/language_model/src/completions.rs`:
the cursor is either in command position or in argument position after
`command` and `leading_args`. -/
inductive CompletionPosition where
  | command
  | arg (command : List Char) (leading_args : List (List Char))
  deriving DecidableEq, Repr

/-- Model of `CompletionPosition::new` from
`src/language_model/src/completions.rs`: find the logical line whose
start line equals the cursor line, keep the tokens whose end column is
strictly before the cursor column, and classify by whether any remain. -/
def completion_position (script : List Char) (cursor : Location) :
    Option CompletionPosition :=
  match (lm_lines script).find?
      (fun l => l.start_line_in_file = cursor.line) with
  | none => none
  | some line =>
    match (tokens line).takeWhile (fun t =>
        decide (t.location_in_file.column + t.text.length < cursor.column)) with
    | [] => some CompletionPosition.command
    | command :: rest =>
        some (CompletionPosition.arg command.text (rest.map (·.text)))

/-- Model of `Completions` from `src/language_model/src/lib.rs` (each `Completion`
is just its text). -/
structure Completions where
  built_in : List (List Char)
  user_provided : List (List Char)
  deriving DecidableEq, Repr

/-- Model of `Semantics::find_completions` from `src/language_model/src/lib.rs`:
empty for unknown files or unresolvable positions; the fixed built-in
keywords in command position; empty in argument position. -/
def find_completions (sem : Semantics) (pos : CursorPosition) :
    Completions :=
  match lookupFile sem.files pos.file with
  | none => ⟨[], []⟩
  | some script =>
    match completion_position script ⟨pos.line, pos.column⟩ with
    | none => ⟨[], []⟩
    | some CompletionPosition.command =>
        ⟨["define".toList, "if".toList, "else".toList, "end".toList], []⟩
    | some (CompletionPosition.arg _ _) => ⟨[], []⟩

/-- A command over which the reverse scan of `find_definition_in` passes
without producing a result and without recursing into another file: a
`define` without identifier, a `define` whose identifier differs from the
target or whose `define` keyword is at or below the line limit, a
`source` without file path, or any `other` command. -/
def scan_neutral (identifier : List Char) (line_limit : Option Nat) :
    Command → Bool
  | Command.define define_tok (some defined_identifier) _ _ =>
      decide (defined_identifier.text ≠ identifier)
        || (match line_limit with
            | some ll => decide (define_tok.location_in_file.line ≥ ll)
            | none => false)
  | Command.define _ none _ _ => true
  | Command.source _ (some _) => false
  | Command.source _ none => true
  | Command.other _ _ => true

theorem resolve_step_neutral {identifier : List Char}
    {line_limit : Option Nat} {c : Command}
    (h : scan_neutral identifier line_limit c = true)
    (recurse : List Char → Option (Option CursorPosition))
    (root script_path : List Char) :
    resolve_step recurse root script_path identifier line_limit c
      = some none := by
  cases c with
  | define define_tok oid body end_tok =>
    cases oid with
    | none => rfl
    | some defined_identifier =>
      simp only [scan_neutral, Bool.or_eq_true, decide_eq_true_eq] at h
      simp only [resolve_step]
      rcases h with h | h
      · rw [if_neg h]
      · cases line_limit with
        | none => simp at h
        | some ll =>
          simp only [decide_eq_true_eq] at h
          by_cases hid : defined_identifier.text = identifier
          · rw [if_pos hid]
            dsimp only
            rw [if_pos h]
          · rw [if_neg hid]
  | source source_tok ofp =>
    cases ofp with
    | none => rfl
    | some fp => simp [scan_neutral] at h
  | other command args => rfl

theorem scan_commands_append_neutral
    {step : Command → Option (Option CursorPosition)} {l : List Command}
    (h : ∀ c ∈ l, step c = some none) (rest : List Command) :
    scan_commands step (l ++ rest) = scan_commands step rest := by
  induction l with
  | nil => rfl
  | cons c l ih =>
    have hc : step c = some none := h c (List.mem_cons_self c l)
    simp only [List.cons_append, scan_commands, hc]
    exact ih (fun c' hc' => h c' (List.mem_cons_of_mem c hc'))

theorem scan_commands_all_neutral
    {step : Command → Option (Option CursorPosition)} {l : List Command}
    (h : ∀ c ∈ l, step c = some none) :
    scan_commands step l = some none := by
  have := scan_commands_append_neutral h []
  simpa using this

theorem scan_commands_mono
    {step step' : Command → Option (Option CursorPosition)}
    (hstep : ∀ c r, step c = some r → step' c = some r) :
    ∀ l r, scan_commands step l = some r → scan_commands step' l = some r := by
  intro l
  induction l with
  | nil => intro r h; exact h
  | cons c rest ih =>
    intro r h
    simp only [scan_commands] at h ⊢
    cases hc : step c with
    | none => rw [hc] at h; exact absurd h (by simp)
    | some r0 =>
      rw [hstep c r0 hc]
      rw [hc] at h
      cases r0 with
      | none => exact ih r h
      | some p => exact h

theorem resolve_step_mono
    {recurse recurse' : List Char → Option (Option CursorPosition)}
    (h : ∀ p r, recurse p = some r → recurse' p = some r)
    (root script_path identifier : List Char) (line_limit : Option Nat) :
    ∀ c r, resolve_step recurse root script_path identifier line_limit c = some r →
      resolve_step recurse' root script_path identifier line_limit c = some r := by
  intro c r
  cases c with
  | define define_tok oid body end_tok =>
    cases oid <;> exact fun hr => hr
  | source source_tok ofp =>
    cases ofp with
    | none => exact fun hr => hr
    | some fp => exact h _ r
  | other command args => exact fun hr => hr

theorem find_definition_in_mono (files : List (List Char × List Char))
    (root identifier : List Char) :
    ∀ fuel fuel', fuel ≤ fuel' → ∀ path lim r,
      find_definition_in files root identifier fuel path lim = some r →
      find_definition_in files root identifier fuel' path lim = some r := by
  intro fuel
  induction fuel with
  | zero =>
    intro fuel' _ path lim r h
    simp [find_definition_in] at h
  | succ fuel ih =>
    intro fuel' hle path lim r h
    obtain ⟨f', rfl⟩ : ∃ f', fuel' = f' + 1 := ⟨fuel' - 1, by omega⟩
    have hff : fuel ≤ f' := by omega
    simp only [find_definition_in] at h ⊢
    cases hl : lookupFile files path with
    | none => rw [hl] at h; simpa using h
    | some script =>
      rw [hl] at h
      exact scan_commands_mono
        (resolve_step_mono (fun p r0 hr => ih f' hff p none r0 hr)
          root path identifier lim) _ r h

theorem find_definition_mono (sem : Semantics) (pos : CursorPosition)
    {fuel fuel' : Nat} (hle : fuel ≤ fuel') {r : Option CursorPosition}
    (h : find_definition sem fuel pos = some r) :
    find_definition sem fuel' pos = some r := by
  simp only [find_definition] at h ⊢
  cases h1 : lookupFile sem.files pos.file with
  | none => simp only [h1] at h ⊢; exact h
  | some script =>
    simp only [h1] at h ⊢
    cases h2 : (lm_lines script).find?
        (fun l => l.start_line_in_file = pos.line) with
    | none => simp only [h2] at h ⊢; exact h
    | some line =>
      simp only [h2] at h ⊢
      cases h3 : (tokens line).find?
          (fun t => t.is_at_location ⟨pos.line, pos.column⟩) with
      | none => simp only [h3] at h ⊢; exact h
      | some token =>
        simp only [h3] at h ⊢
        exact find_definition_in_mono sem.files sem.project_root token.text
          fuel fuel' hle pos.file (some pos.line) r h

theorem find_definition_result_unique {sem : Semantics}
    {pos : CursorPosition} {r r' : Option CursorPosition}
    (h : find_definition_result sem pos r)
    (h' : find_definition_result sem pos r') : r = r' := by
  obtain ⟨f, hf⟩ := h
  obtain ⟨f', hf'⟩ := h'
  have h1 := find_definition_mono sem pos (Nat.le_max_left f f') hf
  have h2 := find_definition_mono sem pos (Nat.le_max_right f f') hf'
  rw [h1] at h2
  exact Option.some.inj h2

theorem lookupFile_mem {files : List (List Char × List Char)}
    {path script : List Char} (h : lookupFile files path = some script) :
    (path, script) ∈ files := by
  unfold lookupFile at h
  cases hf : files.find? (fun kv => kv.1 = path) with
  | none => rw [hf] at h; exact absurd h (by simp)
  | some kv =>
    rw [hf] at h
    have hmem := List.mem_of_find?_eq_some hf
    have hkey := List.find?_some hf
    simp only [decide_eq_true_eq] at hkey
    simp only [Option.map_some', Option.some.injEq] at h
    have : (path, script) = kv := by
      rw [← hkey, ← h]
    rw [this]
    exact hmem

theorem scan_commands_total
    {step : Command → Option (Option CursorPosition)} :
    ∀ l : List Command, (∀ c ∈ l, ∃ r, step c = some r) →
      ∃ r, scan_commands step l = some r := by
  intro l
  induction l with
  | nil => exact fun _ => ⟨none, rfl⟩
  | cons c rest ih =>
    intro h
    obtain ⟨r0, hr0⟩ := h c (List.mem_cons_self c rest)
    cases r0 with
    | none =>
      obtain ⟨r, hr⟩ := ih (fun c' hc' => h c' (List.mem_cons_of_mem c hc'))
      exact ⟨r, by simp only [scan_commands, hr0]; exact hr⟩
    | some p => exact ⟨some p, by simp only [scan_commands, hr0]⟩

theorem resolve_step_total_of_not_source
    (recurse : List Char → Option (Option CursorPosition))
    (root script_path identifier : List Char) (line_limit : Option Nat)
    (c : Command) (h : ∀ st fp, c ≠ Command.source st (some fp)) :
    ∃ r, resolve_step recurse root script_path identifier line_limit c
      = some r := by
  cases c with
  | define define_tok oid body end_tok =>
    cases oid with
    | none => exact ⟨none, rfl⟩
    | some defined_identifier =>
      simp only [resolve_step]
      by_cases hid : defined_identifier.text = identifier
      · rw [if_pos hid]
        cases line_limit with
        | none => exact ⟨_, rfl⟩
        | some ll =>
          dsimp only
          by_cases hll : define_tok.location_in_file.line ≥ ll
          · rw [if_pos hll]; exact ⟨none, rfl⟩
          · rw [if_neg hll]; exact ⟨_, rfl⟩
      · rw [if_neg hid]; exact ⟨none, rfl⟩
  | source source_tok ofp =>
    cases ofp with
    | none => exact ⟨none, rfl⟩
    | some fp => exact absurd rfl (h source_tok fp)
  | other command args => exact ⟨none, rfl⟩

/-- Every `source` command of the file ranked `r` points at a file of
strictly smaller rank; other commands are unconstrained.  This is the
acyclicity certificate for the `source`-reference graph. -/
def source_ranked_below (root : List Char) (rank : List Char → Nat)
    (r : Nat) : Command → Bool
  | Command.source _ (some fp) =>
      decide (rank (canonicalize_path root fp.text) < r)
  | _ => true

theorem find_definition_in_total_of_rank
    (files : List (List Char × List Char)) (root identifier : List Char)
    (rank : List Char → Nat)
    (hrank : ∀ kv ∈ files, ∀ cmd ∈ parse kv.2,
      source_ranked_below root rank (rank kv.1) cmd = true) :
    ∀ n p lim, rank p < n →
      ∃ r, find_definition_in files root identifier (rank p + 1) p lim
        = some r := by
  intro n
  induction n with
  | zero => intro p lim h; omega
  | succ n ih =>
    intro p lim hp
    simp only [find_definition_in]
    cases hl : lookupFile files p with
    | none => exact ⟨none, rfl⟩
    | some script =>
      have hmem : (p, script) ∈ files := lookupFile_mem hl
      apply scan_commands_total
      intro c hc
      have hc' : c ∈ parse script := List.mem_reverse.mp hc
      cases hsrc : c with
      | source source_tok ofp =>
        cases ofp with
        | none => exact ⟨none, rfl⟩
        | some fp =>
          have hlt : rank (canonicalize_path root fp.text) < rank p := by
            have := hrank (p, script) hmem c hc'
            rw [hsrc] at this
            simpa [source_ranked_below] using this
          obtain ⟨r, hr⟩ := ih (canonicalize_path root fp.text) none
            (by omega)
          refine ⟨r, ?_⟩
          simp only [resolve_step]
          exact find_definition_in_mono files root identifier _ _
            (by omega) _ none r hr
      | define define_tok oid body end_tok =>
        exact resolve_step_total_of_not_source _ root p identifier lim _
          (by intro st fp hne; exact Command.noConfusion hne)
      | other command args =>
        exact resolve_step_total_of_not_source _ root p identifier lim _
          (by intro st fp hne; exact Command.noConfusion hne)

theorem find_definition_eq_find_definition_in (sem : Semantics)
    (pos : CursorPosition) (script : List Char) (line : CommandLine)
    (token : Token)
    (hscript : lookupFile sem.files pos.file = some script)
    (hline : (lm_lines script).find?
      (fun l => l.start_line_in_file = pos.line) = some line)
    (htoken : (tokens line).find?
      (fun t => t.is_at_location ⟨pos.line, pos.column⟩) = some token)
    (fuel : Nat) :
    find_definition sem fuel pos =
      find_definition_in sem.files sem.project_root token.text fuel
        pos.file (some pos.line) := by
  simp only [find_definition, hscript, hline, htoken]

theorem find_definition_in_hit (files : List (List Char × List Char))
    (root identifier path script : List Char) (pre post : List Command)
    (define_tok defined_identifier : Token) (body : List Command)
    (end_tok : Option Token) (ll : Nat)
    (hscript : lookupFile files path = some script)
    (hparse : parse script =
      pre ++ Command.define define_tok (some defined_identifier) body
        end_tok :: post)
    (hident : defined_identifier.text = identifier)
    (hqual : define_tok.location_in_file.line < ll)
    (hpost : ∀ c ∈ post, scan_neutral identifier (some ll) c = true) :
    find_definition_in files root identifier 1 path (some ll) =
      some (some ⟨path, defined_identifier.location_in_file.line,
        defined_identifier.location_in_file.column⟩) := by
  simp only [find_definition_in, hscript, hparse]
  rw [List.reverse_append, List.reverse_cons, List.append_assoc,
    List.singleton_append]
  rw [scan_commands_append_neutral (fun c hc =>
    resolve_step_neutral (hpost c (List.mem_reverse.mp hc)) _ _ _)]
  simp only [scan_commands, resolve_step, if_pos hident]
  rw [if_neg (by omega)]

theorem find_definition_in_all_neutral
    (files : List (List Char × List Char))
    (root identifier path script : List Char) (lim : Option Nat)
    (hscript : lookupFile files path = some script)
    (hall : ∀ c ∈ parse script, scan_neutral identifier lim c = true) :
    find_definition_in files root identifier 1 path lim = some none := by
  simp only [find_definition_in, hscript]
  exact scan_commands_all_neutral (fun c hc =>
    resolve_step_neutral (hall c (List.mem_reverse.mp hc)) _ _ _)

theorem linesAux_cons_other (c : Char) (rest cur : List Char) (ln : Nat)
    (esc : Bool) (h : c ≠ '\n') :
    linesAux (c :: rest) cur ln esc
      = linesAux rest (cur ++ [c]) ln (decide (c = '\\')) := by
  simp only [linesAux]
  rw [if_neg (fun hh => h hh.1)]

theorem linesAux_cons_newline_escaped (rest cur : List Char) (ln : Nat)
    (esc : Bool) (h : esc = true) :
    linesAux ('\n' :: rest) cur ln esc
      = linesAux rest (cur ++ ['\n']) ln false := by
  subst h
  simp only [linesAux]
  rw [if_neg (by simp)]
  rfl

theorem linesAux_all_no_newline (ln : Nat) :
    ∀ (b cur : List Char) (esc : Bool), (∀ c ∈ b, c ≠ '\n') → cur ≠ [] →
      linesAux b cur ln esc = [⟨cur ++ b, ln⟩] := by
  intro b
  induction b with
  | nil =>
    intro cur esc _ hcur
    simp [linesAux, hcur]
  | cons c b ih =>
    intro cur esc hb hcur
    have hc : c ≠ '\n' := hb c (List.mem_cons_self c b)
    rw [linesAux_cons_other c b cur ln esc hc]
    rw [ih (cur ++ [c]) _ (fun c' hc' => hb c' (List.mem_cons_of_mem c hc'))
      (by simp)]
    simp

theorem linesAux_continuation_prefix (b : List Char) (tail : List Char)
    (hb : ∀ c ∈ b, c ≠ '\n')
    (htail : tail = '\\' :: '\n' :: b ∨ tail = '\\' :: '\\' :: '\n' :: b) :
    ∀ (a cur : List Char) (esc : Bool), (∀ c ∈ a, c ≠ '\n') →
      linesAux (a ++ tail) cur 0 esc = [⟨cur ++ (a ++ tail), 0⟩] := by
  intro a
  induction a with
  | nil =>
    intro cur esc _
    rcases htail with rfl | rfl
    · rw [List.nil_append,
        linesAux_cons_other '\\' _ cur 0 esc (by decide),
        linesAux_cons_newline_escaped _ _ 0 _ (by decide),
        linesAux_all_no_newline 0 b _ false hb (by simp)]
      simp
    · rw [List.nil_append,
        linesAux_cons_other '\\' _ cur 0 esc (by decide),
        linesAux_cons_other '\\' _ _ 0 _ (by decide),
        linesAux_cons_newline_escaped _ _ 0 _ (by decide),
        linesAux_all_no_newline 0 b _ false hb (by simp)]
      simp
  | cons c a ih =>
    intro cur esc ha
    have hc : c ≠ '\n' := ha c (List.mem_cons_self c a)
    rw [List.cons_append, linesAux_cons_other c _ cur 0 esc hc]
    rw [ih (cur ++ [c]) _ (fun c' hc' => ha c' (List.mem_cons_of_mem c hc'))]
    simp

/-- C9: parsing is total — it is a Lean function on arbitrary input, with
malformed input (missing identifier, missing `end`, stray `end`)
producing a partial tree rather than an error — and the token extraction
performed on the terminating line of a `define` block never fails: a
terminating line returned by a recursive `parse_until` call always has at
least one token, and that token is `end`, so the `unwrap` in the source
(modelled as `Option.head?`) always succeeds. -/
theorem parse_until_terminating_line :
    ∀ (fuel : Nat) (input : List CommandLine) (until_end : Bool)
      (line : CommandLine),
      (parse_until fuel input until_end).2.1 = some line →
      ∃ tok toks, tokens line = tok :: toks ∧ tok.text = "end".toList := by
  intro fuel
  induction fuel with
  | zero =>
    intro input ue line h
    simp [parse_until] at h
  | succ fuel ih =>
    intro input ue line h
    cases input with
    | nil => simp [parse_until] at h
    | cons l rest =>
      simp only [parse_until] at h
      cases ht : tokens l with
      | nil =>
        simp only [ht] at h
        exact ih rest ue line h
      | cons tok toks =>
        simp only [ht] at h
        by_cases hd : tok.text = "define".toList
        · rw [if_pos hd] at h
          simp only at h
          exact ih _ ue line h
        · rw [if_neg hd] at h
          by_cases he : tok.text = "end".toList
          · rw [if_pos he] at h
            by_cases hu : ue = true
            · rw [if_pos hu] at h
              have : l = line := by simpa using h
              exact ⟨tok, toks, this ▸ ht, he⟩
            · rw [if_neg hu] at h
              exact ih rest ue line h
          · rw [if_neg he] at h
            by_cases hs : tok.text = "source".toList
            · rw [if_pos hs] at h
              simp only at h
              exact ih rest ue line h
            · rw [if_neg hs] at h
              simp only at h
              exact ih rest ue line h

/-- The predicate characterising which parsed commands contribute an
entry equal to `p` to the list returned by `set_file_text`: a `source`
command whose raw file path is not yet a key of the file table and whose
canonicalized file path is `p`. -/
def is_unresolved_source_to (sem : Semantics) (p : List Char) :
    Command → Bool
  | Command.source _ (some fp) =>
      !(lookupFile sem.files fp.text).isSome
        && decide (canonicalize_path sem.project_root fp.text = p)
  | _ => false

theorem countP_filterMap_eq (f : Command → Option (List Char))
    (p : List Char) :
    ∀ l : List Command,
      (l.filterMap f).countP (fun q => q = p)
        = l.countP (fun c => f c = some p) := by
  intro l
  induction l with
  | nil => rfl
  | cons c rest ih =>
    cases hf : f c with
    | none =>
      rw [List.filterMap_cons_none hf, List.countP_cons, ih]
      simp [hf]
    | some q =>
      rw [List.filterMap_cons_some hf, List.countP_cons, List.countP_cons,
        ih]
      simp [hf]

/-- Witness for C9: on the input consisting of the single line `end`,
`parse_until` with `until_end = true` does return a terminating line, and
the theorem's conclusion holds for it. -/
theorem parse_until_terminating_line_witness :
    (parse_until 1 [⟨"end\n".toList, 0⟩] true).2.1
        = some ⟨"end\n".toList, 0⟩
      ∧ tokens ⟨"end\n".toList, 0⟩ ≠ []
      ∧ (tokens ⟨"end\n".toList, 0⟩).head?.map Token.text
          = some "end".toList := by
  obtain ⟨tok, toks, h1, h2⟩ := parse_until_terminating_line 1
    [⟨"end\n".toList, 0⟩] true ⟨"end\n".toList, 0⟩ rfl
  refine ⟨rfl, ?_, ?_⟩
  · rw [h1]; simp
  · rw [h1]; simp [h2]

/-- C2 (code bug): `set_file_text` filters the `source` targets against
the file table using the *raw* path text and only then canonicalizes, so
a target whose canonicalized form is already a key is still returned.
Here the table knows `/home/user/hello.gdb`, the project root is
`/home/user`, and submitting a file containing `source hello.gdb` returns
`/home/user/hello.gdb` as unresolved even though it is already known —
the claim (and the doc comment of `set_file_text`, "external files which
are not already loaded") says it must not be returned. -/
theorem set_file_text_returns_already_known_canonical_path :
    (set_file_text
        ⟨"/home/user".toList,
         [("/home/user/hello.gdb".toList, "define say_hi\nend\n".toList)]⟩
        "/home/user/foo.gdb".toList "source hello.gdb\n".toList).2
      = ["/home/user/hello.gdb".toList]
    ∧ lookupFile
        [("/home/user/hello.gdb".toList, "define say_hi\nend\n".toList)]
        "/home/user/hello.gdb".toList
      = some "define say_hi\nend\n".toList := by
  decide

/-- C6: `find_completions` on a known file whose stored text is empty, at
line 0 / column 0, returns the ordered built-in list
`[define, if, else, end]` and an empty `user_provided` list. -/
theorem find_completions_empty_script (sem : Semantics)
    (path : List Char) (h : lookupFile sem.files path = some []) :
    find_completions sem ⟨path, 0, 0⟩ =
      ⟨["define".toList, "if".toList, "else".toList, "end".toList], []⟩ := by
  simp only [find_completions, h]
  rfl

/-- Witness for C6: a concrete table storing the empty script. -/
theorem find_completions_empty_script_witness :
    lookupFile [("foo.gdb".toList, ([] : List Char))] "foo.gdb".toList
        = some []
      ∧ find_completions ⟨[], [("foo.gdb".toList, [])]⟩
          ⟨"foo.gdb".toList, 0, 0⟩ =
        ⟨["define".toList, "if".toList, "else".toList, "end".toList], []⟩ :=
  ⟨rfl, find_completions_empty_script ⟨[], [("foo.gdb".toList, [])]⟩
    "foo.gdb".toList rfl⟩

/-- C7 (amended): a physical line ending in a backslash immediately
before the newline is merged with the following physical line — and this
holds for a line ending in *two* backslashes as well, because the escape
flag of `lines` only records whether the immediately preceding character
is a backslash (it does not toggle), so after `\\` the newline still
counts as escaped.  Both a `…\\⏎…` text and a `…\⏎…` text form a single
logical line. -/
theorem lines_backslash_always_continues (a b : List Char)
    (ha : ∀ c ∈ a, c ≠ '\n') (hb : ∀ c ∈ b, c ≠ '\n') :
    lines (a ++ '\\' :: '\\' :: '\n' :: b)
        = [⟨a ++ '\\' :: '\\' :: '\n' :: b, 0⟩]
      ∧ lines (a ++ '\\' :: '\n' :: b) = [⟨a ++ '\\' :: '\n' :: b, 0⟩] := by
  constructor
  · have := linesAux_continuation_prefix b _ hb (Or.inr rfl) a [] false ha
    simpa [lines] using this
  · have := linesAux_continuation_prefix b _ hb (Or.inl rfl) a [] false ha
    simpa [lines] using this

/-- Witness for C7 (amended): `x\\⏎y` and `x\⏎y` each segment into one
logical line. -/
theorem lines_backslash_always_continues_witness :
    lines ("x".toList ++ '\\' :: '\\' :: '\n' :: "y".toList)
        = [⟨"x".toList ++ '\\' :: '\\' :: '\n' :: "y".toList, 0⟩]
      ∧ lines ("x".toList ++ '\\' :: '\n' :: "y".toList)
          = [⟨"x".toList ++ '\\' :: '\n' :: "y".toList, 0⟩] :=
  ⟨(lines_backslash_always_continues "x".toList "y".toList (by decide)
      (by decide)).1,
    (lines_backslash_always_continues "x".toList "y".toList (by decide)
      (by decide)).2⟩

/-- Counterexample for C7 as stated: the claim says a line ending in two
consecutive backslashes is NOT merged with the following physical line,
i.e. `x\\⏎y` would segment into two logical lines; in fact the segmenter
produces a single logical line spanning both. -/
theorem lines_double_backslash_still_merges :
    lines "x\\\\\ny".toList = [⟨"x\\\\\ny".toList, 0⟩]
      ∧ (lines "x\\\\\ny".toList).length = 1 := by
  decide

/-- C8 (amended): the unresolved-path list returned by `set_file_text` is
*not* deduplicated: a canonical path `p` occurs in it exactly as many
times as there are `source` commands in the parsed text whose raw target
is not yet known and whose canonicalized target is `p` — one entry per
qualifying directive, in source order. -/
theorem set_file_text_unresolved_multiplicity (sem : Semantics)
    (path text p : List Char) :
    ((set_file_text sem path text).2).countP (fun q => q = p)
      = (parse text).countP (is_unresolved_source_to sem p) := by
  simp only [set_file_text]
  rw [countP_filterMap_eq]
  apply List.countP_congr
  intro c _
  cases c with
  | define define_tok oid body end_tok =>
    cases oid <;> simp [is_unresolved_source_to]
  | source source_tok ofp =>
    cases ofp with
    | none => simp [is_unresolved_source_to]
    | some fp =>
      simp only [is_unresolved_source_to]
      by_cases hk : (lookupFile sem.files fp.text).isSome
      · simp [hk]
      · simp [hk]
  | other command args => simp [is_unresolved_source_to]

/-- Counterexample for C8 as stated: a file with two identical `source`
directives whose target is unknown yields the same canonical path twice —
the returned list has duplicate entries, which the claim rules out. -/
theorem set_file_text_returns_duplicate_paths :
    (set_file_text ⟨[], []⟩ "foo.gdb".toList
        "source a.gdb\nsource a.gdb\n".toList).2
      = ["a.gdb".toList, "a.gdb".toList]
    ∧ ¬ (set_file_text ⟨[], []⟩ "foo.gdb".toList
        "source a.gdb\nsource a.gdb\n".toList).2.Nodup := by
  decide

/-- C1 (amended): a same-file `define` of the identifier under the
cursor, starting strictly before the query line, wins over any sourced
file's definitions *provided no `source` directive (and no other
qualifying resolver entry) follows it among the file's top-level
commands*: `find_definition_in` performs a single reverse scan in which
`Define` and `Source` commands are interleaved, so the same-file `define`
is returned when it is the last qualifying entry, regardless of what any
sourced file defines. -/
theorem find_definition_same_file_define_wins_when_no_later_source
    (sem : Semantics) (pos : CursorPosition) (script : List Char)
    (line : CommandLine) (token : Token) (pre post : List Command)
    (define_tok defined_identifier : Token) (body : List Command)
    (end_tok : Option Token)
    (hscript : lookupFile sem.files pos.file = some script)
    (hline : (lm_lines script).find?
      (fun l => l.start_line_in_file = pos.line) = some line)
    (htoken : (tokens line).find?
      (fun t => t.is_at_location ⟨pos.line, pos.column⟩) = some token)
    (hparse : parse script = pre
      ++ Command.define define_tok (some defined_identifier) body end_tok
        :: post)
    (hident : defined_identifier.text = token.text)
    (hbefore : define_tok.location_in_file.line < pos.line)
    (hpost : ∀ c ∈ post, scan_neutral token.text (some pos.line) c = true) :
    find_definition_result sem pos
      (some ⟨pos.file, defined_identifier.location_in_file.line,
        defined_identifier.location_in_file.column⟩) := by
  refine ⟨1, ?_⟩
  rw [find_definition_eq_find_definition_in sem pos script line token
    hscript hline htoken 1]
  exact find_definition_in_hit sem.files sem.project_root token.text
    pos.file script pre post define_tok defined_identifier body end_tok
    pos.line hscript hparse hident hbefore hpost

/-- Witness for C1 (amended): the query file sources `b.gdb` *before* its
own `define say_hi`, so the reverse scan meets the same-file `define`
first and returns its identifier position `(1, 7)` in the query file. -/
theorem find_definition_same_file_define_wins_witness :
    lookupFile
        [("/r/a.gdb".toList,
          "source b.gdb\ndefine say_hi\nend\nsay_hi\n".toList),
         ("/r/b.gdb".toList, "define say_hi\nend\n".toList)]
        "/r/a.gdb".toList
      = some "source b.gdb\ndefine say_hi\nend\nsay_hi\n".toList
    ∧ parse "source b.gdb\ndefine say_hi\nend\nsay_hi\n".toList
      = [Command.source ⟨"source".toList, ⟨0, 0⟩⟩
          (some ⟨"b.gdb".toList, ⟨0, 7⟩⟩)]
        ++ Command.define ⟨"define".toList, ⟨1, 0⟩⟩
            (some ⟨"say_hi".toList, ⟨1, 7⟩⟩) []
            (some ⟨"end".toList, ⟨2, 0⟩⟩)
          :: [Command.other ⟨"say_hi".toList, ⟨3, 0⟩⟩ []]
    ∧ find_definition_result
        ⟨"/r".toList,
         [("/r/a.gdb".toList,
           "source b.gdb\ndefine say_hi\nend\nsay_hi\n".toList),
          ("/r/b.gdb".toList, "define say_hi\nend\n".toList)]⟩
        ⟨"/r/a.gdb".toList, 3, 0⟩
        (some ⟨"/r/a.gdb".toList, 1, 7⟩) :=
  ⟨rfl, rfl,
    find_definition_same_file_define_wins_when_no_later_source
      ⟨"/r".toList,
       [("/r/a.gdb".toList,
         "source b.gdb\ndefine say_hi\nend\nsay_hi\n".toList),
        ("/r/b.gdb".toList, "define say_hi\nend\n".toList)]⟩
      ⟨"/r/a.gdb".toList, 3, 0⟩
      "source b.gdb\ndefine say_hi\nend\nsay_hi\n".toList
      ⟨"say_hi\n".toList, 3⟩ ⟨"say_hi".toList, ⟨3, 0⟩⟩
      [Command.source ⟨"source".toList, ⟨0, 0⟩⟩
        (some ⟨"b.gdb".toList, ⟨0, 7⟩⟩)]
      [Command.other ⟨"say_hi".toList, ⟨3, 0⟩⟩ []]
      ⟨"define".toList, ⟨1, 0⟩⟩ ⟨"say_hi".toList, ⟨1, 7⟩⟩ []
      (some ⟨"end".toList, ⟨2, 0⟩⟩)
      rfl rfl rfl rfl rfl (by decide) (by decide)⟩

/-- Counterexample for C1 as stated: the query file defines `say_hi`
before the query line *and* sources a known file `b.gdb` that also
defines `say_hi`, but because the `source` line comes after the `define`,
the reverse scan meets the `source` first and `find_definition` returns
the position inside the sourced file `/r/b.gdb` — not the same-file
definition, which the claim requires unconditionally. -/
theorem find_definition_source_after_define_shadows_same_file :
    find_definition_result
        ⟨"/r".toList,
         [("/r/a.gdb".toList,
           "define say_hi\nend\nsource b.gdb\nsay_hi\n".toList),
          ("/r/b.gdb".toList, "define say_hi\nend\n".toList)]⟩
        ⟨"/r/a.gdb".toList, 3, 0⟩
        (some ⟨"/r/b.gdb".toList, 0, 7⟩)
    ∧ ¬ find_definition_result
        ⟨"/r".toList,
         [("/r/a.gdb".toList,
           "define say_hi\nend\nsource b.gdb\nsay_hi\n".toList),
          ("/r/b.gdb".toList, "define say_hi\nend\n".toList)]⟩
        ⟨"/r/a.gdb".toList, 3, 0⟩
        (some ⟨"/r/a.gdb".toList, 0, 7⟩) := by
  have hb : find_definition
      ⟨"/r".toList,
       [("/r/a.gdb".toList,
         "define say_hi\nend\nsource b.gdb\nsay_hi\n".toList),
        ("/r/b.gdb".toList, "define say_hi\nend\n".toList)]⟩ 2
      ⟨"/r/a.gdb".toList, 3, 0⟩
      = some (some ⟨"/r/b.gdb".toList, 0, 7⟩) := by decide
  refine ⟨⟨2, hb⟩, ?_⟩
  intro h
  have huniq := find_definition_result_unique h ⟨2, hb⟩
  exact absurd huniq (by decide)

/-- C3 (amended): with two top-level `define NAME` blocks both starting
strictly before the usage line, `find_definition` at the `NAME` usage
returns the identifier position of the second (textually later) block,
*provided no `source` directive and no further qualifying `define`
follows the second block* among the file's top-level commands (otherwise
the interleaved reverse scan would return that later entry instead). -/
theorem find_definition_most_recent_define_wins
    (sem : Semantics) (pos : CursorPosition) (script : List Char)
    (line : CommandLine) (token : Token) (pre mid post : List Command)
    (define_tok1 defined_identifier1 : Token) (body1 : List Command)
    (end_tok1 : Option Token)
    (define_tok2 defined_identifier2 : Token) (body2 : List Command)
    (end_tok2 : Option Token)
    (hscript : lookupFile sem.files pos.file = some script)
    (hline : (lm_lines script).find?
      (fun l => l.start_line_in_file = pos.line) = some line)
    (htoken : (tokens line).find?
      (fun t => t.is_at_location ⟨pos.line, pos.column⟩) = some token)
    (hparse : parse script = pre
      ++ Command.define define_tok1 (some defined_identifier1) body1
          end_tok1
        :: (mid
          ++ Command.define define_tok2 (some defined_identifier2) body2
              end_tok2
            :: post))
    (hident1 : defined_identifier1.text = token.text)
    (hident2 : defined_identifier2.text = token.text)
    (hbefore1 : define_tok1.location_in_file.line < pos.line)
    (hbefore2 : define_tok2.location_in_file.line < pos.line)
    (hpost : ∀ c ∈ post, scan_neutral token.text (some pos.line) c = true) :
    find_definition_result sem pos
      (some ⟨pos.file, defined_identifier2.location_in_file.line,
        defined_identifier2.location_in_file.column⟩) := by
  refine ⟨1, ?_⟩
  rw [find_definition_eq_find_definition_in sem pos script line token
    hscript hline htoken 1]
  have hparse' : parse script =
      (pre ++ Command.define define_tok1 (some defined_identifier1) body1
        end_tok1 :: mid)
      ++ Command.define define_tok2 (some defined_identifier2) body2
          end_tok2 :: post := by
    rw [hparse]
    simp
  exact find_definition_in_hit sem.files sem.project_root token.text
    pos.file script _ post define_tok2 defined_identifier2 body2 end_tok2
    pos.line hscript hparse' hident2 hbefore2 hpost

/-- Witness for C3 (amended): two `define say_hi` blocks before the usage
on line 4; the second block's identifier position `(2, 7)` is returned. -/
theorem find_definition_most_recent_define_wins_witness :
    parse "define say_hi\nend\ndefine say_hi\nend\nsay_hi\n".toList
      = []
        ++ Command.define ⟨"define".toList, ⟨0, 0⟩⟩
            (some ⟨"say_hi".toList, ⟨0, 7⟩⟩) []
            (some ⟨"end".toList, ⟨1, 0⟩⟩)
          :: ([]
            ++ Command.define ⟨"define".toList, ⟨2, 0⟩⟩
                (some ⟨"say_hi".toList, ⟨2, 7⟩⟩) []
                (some ⟨"end".toList, ⟨3, 0⟩⟩)
              :: [Command.other ⟨"say_hi".toList, ⟨4, 0⟩⟩ []])
    ∧ find_definition_result
        ⟨[], [("foo.gdb".toList,
          "define say_hi\nend\ndefine say_hi\nend\nsay_hi\n".toList)]⟩
        ⟨"foo.gdb".toList, 4, 0⟩
        (some ⟨"foo.gdb".toList, 2, 7⟩) :=
  ⟨rfl,
    find_definition_most_recent_define_wins
      ⟨[], [("foo.gdb".toList,
        "define say_hi\nend\ndefine say_hi\nend\nsay_hi\n".toList)]⟩
      ⟨"foo.gdb".toList, 4, 0⟩
      "define say_hi\nend\ndefine say_hi\nend\nsay_hi\n".toList
      ⟨"say_hi\n".toList, 4⟩ ⟨"say_hi".toList, ⟨4, 0⟩⟩
      [] [] [Command.other ⟨"say_hi".toList, ⟨4, 0⟩⟩ []]
      ⟨"define".toList, ⟨0, 0⟩⟩ ⟨"say_hi".toList, ⟨0, 7⟩⟩ []
      (some ⟨"end".toList, ⟨1, 0⟩⟩)
      ⟨"define".toList, ⟨2, 0⟩⟩ ⟨"say_hi".toList, ⟨2, 7⟩⟩ []
      (some ⟨"end".toList, ⟨3, 0⟩⟩)
      rfl rfl rfl rfl rfl rfl (by decide) (by decide) (by decide)⟩

/-- Counterexample for C3 as stated: a script containing two top-level
`define say_hi` blocks before the usage, followed by `source b.gdb` where
the known file `b.gdb` also defines `say_hi`.  `find_definition` returns
the position inside `/r/b.gdb`, not the second block's identifier
position `(2, 7)` required by the claim. -/
theorem find_definition_second_define_not_returned_with_later_source :
    find_definition_result
        ⟨"/r".toList,
         [("/r/a.gdb".toList,
           "define say_hi\nend\ndefine say_hi\nend\nsource b.gdb\nsay_hi\n".toList),
          ("/r/b.gdb".toList, "define say_hi\nend\n".toList)]⟩
        ⟨"/r/a.gdb".toList, 5, 0⟩
        (some ⟨"/r/b.gdb".toList, 0, 7⟩)
    ∧ ¬ find_definition_result
        ⟨"/r".toList,
         [("/r/a.gdb".toList,
           "define say_hi\nend\ndefine say_hi\nend\nsource b.gdb\nsay_hi\n".toList),
          ("/r/b.gdb".toList, "define say_hi\nend\n".toList)]⟩
        ⟨"/r/a.gdb".toList, 5, 0⟩
        (some ⟨"/r/a.gdb".toList, 2, 7⟩) := by
  have hb : find_definition
      ⟨"/r".toList,
       [("/r/a.gdb".toList,
         "define say_hi\nend\ndefine say_hi\nend\nsource b.gdb\nsay_hi\n".toList),
        ("/r/b.gdb".toList, "define say_hi\nend\n".toList)]⟩ 2
      ⟨"/r/a.gdb".toList, 5, 0⟩
      = some (some ⟨"/r/b.gdb".toList, 0, 7⟩) := by decide
  refine ⟨⟨2, hb⟩, ?_⟩
  intro h
  have huniq := find_definition_result_unique h ⟨2, hb⟩
  exact absurd huniq (by decide)

/-- C4 (amended): the definition resolver consults only the *top-level*
commands of a file — `Define` bodies are never scanned, so a
`define NAME` nested inside another `define` block is invisible.  If
every top-level command is inert for the scan (an `other` command, a
`define` with missing or different identifier or one at/below the query
line, or a `source` without path), `find_definition` returns nothing, no
matter what `define` blocks are nested inside the bodies. -/
theorem find_definition_ignores_nested_defines
    (sem : Semantics) (pos : CursorPosition) (script : List Char)
    (line : CommandLine) (token : Token)
    (hscript : lookupFile sem.files pos.file = some script)
    (hline : (lm_lines script).find?
      (fun l => l.start_line_in_file = pos.line) = some line)
    (htoken : (tokens line).find?
      (fun t => t.is_at_location ⟨pos.line, pos.column⟩) = some token)
    (hall : ∀ c ∈ parse script,
      scan_neutral token.text (some pos.line) c = true) :
    find_definition_result sem pos none := by
  refine ⟨1, ?_⟩
  rw [find_definition_eq_find_definition_in sem pos script line token
    hscript hline htoken 1]
  exact find_definition_in_all_neutral sem.files sem.project_root
    token.text pos.file script (some pos.line) hscript hall

/-- Witness for C4 (amended): the file nests `define inner` inside
`define outer`; its only top-level commands are the outer `define`
(identifier `outer`, not `inner`) and the usage itself, so the query at
the `inner` usage returns nothing. -/
theorem find_definition_ignores_nested_defines_witness :
    lookupFile
        [("/r/c.gdb".toList,
          "define outer\ndefine inner\nend\nend\ninner\n".toList)]
        "/r/c.gdb".toList
      = some "define outer\ndefine inner\nend\nend\ninner\n".toList
    ∧ find_definition_result
        ⟨"/r".toList,
         [("/r/c.gdb".toList,
           "define outer\ndefine inner\nend\nend\ninner\n".toList)]⟩
        ⟨"/r/c.gdb".toList, 4, 0⟩ none :=
  ⟨rfl,
    find_definition_ignores_nested_defines
      ⟨"/r".toList,
       [("/r/c.gdb".toList,
         "define outer\ndefine inner\nend\nend\ninner\n".toList)]⟩
      ⟨"/r/c.gdb".toList, 4, 0⟩
      "define outer\ndefine inner\nend\nend\ninner\n".toList
      ⟨"inner\n".toList, 4⟩ ⟨"inner".toList, ⟨4, 0⟩⟩
      rfl rfl rfl (by decide)⟩

/-- Counterexample for C4 as stated: the file contains a `define inner`
block nested inside `define outer`, starting on line 1, strictly before
the `inner` usage on line 4 — the parser does record the nested block —
yet `find_definition` at the usage returns nothing rather than the nested
definition's identifier position `(1, 7)`. -/
theorem find_definition_nested_define_not_found :
    parse "define outer\ndefine inner\nend\nend\ninner\n".toList
      = [Command.define ⟨"define".toList, ⟨0, 0⟩⟩
          (some ⟨"outer".toList, ⟨0, 7⟩⟩)
          [Command.define ⟨"define".toList, ⟨1, 0⟩⟩
            (some ⟨"inner".toList, ⟨1, 7⟩⟩) []
            (some ⟨"end".toList, ⟨2, 0⟩⟩)]
          (some ⟨"end".toList, ⟨3, 0⟩⟩),
         Command.other ⟨"inner".toList, ⟨4, 0⟩⟩ []]
    ∧ find_definition_result
        ⟨"/r".toList,
         [("/r/c.gdb".toList,
           "define outer\ndefine inner\nend\nend\ninner\n".toList)]⟩
        ⟨"/r/c.gdb".toList, 4, 0⟩ none
    ∧ ¬ find_definition_result
        ⟨"/r".toList,
         [("/r/c.gdb".toList,
           "define outer\ndefine inner\nend\nend\ninner\n".toList)]⟩
        ⟨"/r/c.gdb".toList, 4, 0⟩
        (some ⟨"/r/c.gdb".toList, 1, 7⟩) := by
  have hn : find_definition
      ⟨"/r".toList,
       [("/r/c.gdb".toList,
         "define outer\ndefine inner\nend\nend\ninner\n".toList)]⟩ 1
      ⟨"/r/c.gdb".toList, 4, 0⟩ = some none := by decide
  refine ⟨rfl, ⟨1, hn⟩, ?_⟩
  intro h
  have huniq := find_definition_result_unique h ⟨1, hn⟩
  exact absurd huniq (by decide)

/-- A file table whose `source` references form a cycle: `/r/a.gdb`
sources `b.gdb` and `/r/b.gdb` sources `a.gdb` (both canonicalize onto
the table's keys), and the identifier `foo` used in `a.gdb` is defined
nowhere. -/
def cycFiles : List (List Char × List Char) :=
  [("/r/a.gdb".toList, "source b.gdb\nfoo\n".toList),
   ("/r/b.gdb".toList, "source a.gdb\n".toList)]

def cycSem : Semantics := ⟨"/r".toList, cycFiles⟩

def cycPos : CursorPosition := ⟨"/r/a.gdb".toList, 1, 0⟩

theorem cyc_find_in_a_step (n : Nat) :
    find_definition_in cycFiles "/r".toList "foo".toList (n + 1)
        "/r/a.gdb".toList none
      = (match find_definition_in cycFiles "/r".toList "foo".toList n
            "/r/b.gdb".toList none with
         | none => none
         | some (some p) => some (some p)
         | some none => some none) := rfl

theorem cyc_find_in_b_step (n : Nat) :
    find_definition_in cycFiles "/r".toList "foo".toList (n + 1)
        "/r/b.gdb".toList none
      = (match find_definition_in cycFiles "/r".toList "foo".toList n
            "/r/a.gdb".toList none with
         | none => none
         | some (some p) => some (some p)
         | some none => some none) := rfl

theorem cyc_find_in_none (n : Nat) :
    find_definition_in cycFiles "/r".toList "foo".toList n
        "/r/a.gdb".toList none = none
    ∧ find_definition_in cycFiles "/r".toList "foo".toList n
        "/r/b.gdb".toList none = none := by
  induction n with
  | zero => exact ⟨rfl, rfl⟩
  | succ n ih =>
    refine ⟨?_, ?_⟩
    · rw [cyc_find_in_a_step n, ih.2]
    · rw [cyc_find_in_b_step n, ih.1]

theorem cyc_find_definition_step (n : Nat) :
    find_definition cycSem (n + 1) cycPos
      = (match find_definition_in cycFiles "/r".toList "foo".toList n
            "/r/b.gdb".toList none with
         | none => none
         | some (some p) => some (some p)
         | some none => some none) := rfl

theorem cyc_find_definition_none (fuel : Nat) :
    find_definition cycSem fuel cycPos = none := by
  cases fuel with
  | zero => rfl
  | succ n => rw [cyc_find_definition_step n, (cyc_find_in_none n).2]

/-- Counterexample for C5 as stated: with the cyclic table `cycFiles`
(`a.gdb` sources `b.gdb`, `b.gdb` sources `a.gdb`) and the undefined
identifier `foo` under the cursor, `find_definition` never finishes: the
mutual recursion through the `source` commands exhausts every fuel
budget, corresponding to unbounded recursion (a stack overflow) in the
source, which has no cycle detection. -/
theorem find_definition_cyclic_sources_diverge :
    ¬ find_definition_terminates cycSem cycPos := by
  rintro ⟨fuel, r, h⟩
  rw [cyc_find_definition_none fuel] at h
  exact Option.noConfusion h

/-- C5 (amended): `find_definition` does run to completion whenever the
`source`-reference graph of the file table is acyclic — witnessed by a
rank function under which every `source` command of a stored file points
at a file of strictly smaller rank.  A fuel budget of one more than the
query file's rank always suffices. -/
theorem find_definition_terminates_of_ranked_sources (sem : Semantics)
    (rank : List Char → Nat)
    (hrank : ∀ kv ∈ sem.files, ∀ cmd ∈ parse kv.2,
      source_ranked_below sem.project_root rank (rank kv.1) cmd = true)
    (pos : CursorPosition) :
    find_definition_terminates sem pos := by
  cases h1 : lookupFile sem.files pos.file with
  | none => exact ⟨0, none, by simp [find_definition, h1]⟩
  | some script =>
    cases h2 : (lm_lines script).find?
        (fun l => l.start_line_in_file = pos.line) with
    | none => exact ⟨0, none, by simp [find_definition, h1, h2]⟩
    | some line =>
      cases h3 : (tokens line).find?
          (fun t => t.is_at_location ⟨pos.line, pos.column⟩) with
      | none => exact ⟨0, none, by simp [find_definition, h1, h2, h3]⟩
      | some token =>
        obtain ⟨r, hr⟩ := find_definition_in_total_of_rank sem.files
          sem.project_root token.text rank hrank (rank pos.file + 1)
          pos.file (some pos.line) (by omega)
        refine ⟨rank pos.file + 1, r, ?_⟩
        rw [find_definition_eq_find_definition_in sem pos script line token
          h1 h2 h3 (rank pos.file + 1)]
        exact hr

/-- Witness for C5 (amended): an acyclic table — `/r/a.gdb` sources
`b.gdb`, which sources nothing — with the rank function assigning 1 to
`/r/a.gdb` and 0 elsewhere; the query at the `foo` usage terminates. -/
theorem find_definition_terminates_of_ranked_sources_witness :
    find_definition_terminates
        ⟨"/r".toList,
         [("/r/a.gdb".toList, "source b.gdb\nfoo\n".toList),
          ("/r/b.gdb".toList, "echo hi\n".toList)]⟩
        ⟨"/r/a.gdb".toList, 1, 0⟩ :=
  find_definition_terminates_of_ranked_sources
    ⟨"/r".toList,
     [("/r/a.gdb".toList, "source b.gdb\nfoo\n".toList),
      ("/r/b.gdb".toList, "echo hi\n".toList)]⟩
    (fun p => if p = "/r/a.gdb".toList then 1 else 0)
    (by decide)
    ⟨"/r/a.gdb".toList, 1, 0⟩

/-- C10 (amended): both queries locate the logical line by exact equality
with its recorded start line, so when *no* logical line of the stored
file has the query's line number as its start line, `find_definition`
returns nothing (for every fuel) and `find_completions` returns the empty
completion set.  (Because the segmenter numbers logical lines
consecutively, a continuation physical line's number can coincide with a
*later* logical line's start line, in which case the queries answer from
that line instead of returning nothing.) -/
theorem queries_miss_when_no_start_line_matches (sem : Semantics)
    (pos : CursorPosition) (script : List Char)
    (hscript : lookupFile sem.files pos.file = some script)
    (hmiss : ∀ l ∈ lm_lines script, ¬ l.start_line_in_file = pos.line) :
    (∀ fuel, find_definition sem fuel pos = some none)
      ∧ find_completions sem pos = ⟨[], []⟩ := by
  have hfind : (lm_lines script).find?
      (fun l => l.start_line_in_file = pos.line) = none := by
    rw [List.find?_eq_none]
    intro l hl
    simpa using hmiss l hl
  constructor
  · intro fuel
    simp [find_definition, hscript, hfind]
  · simp [find_completions, hscript, completion_position, hfind]

/-- Witness for C10 (amended): the file `a \⏎b` is one logical line
starting at line 0; a query at line 5 matches no logical line, and both
queries return empty results. -/
theorem queries_miss_when_no_start_line_matches_witness :
    lookupFile [("f.gdb".toList, "a \\\nb\n".toList)] "f.gdb".toList
        = some "a \\\nb\n".toList
    ∧ find_definition ⟨[], [("f.gdb".toList, "a \\\nb\n".toList)]⟩ 3
        ⟨"f.gdb".toList, 5, 0⟩ = some none
    ∧ find_completions ⟨[], [("f.gdb".toList, "a \\\nb\n".toList)]⟩
        ⟨"f.gdb".toList, 5, 0⟩ = ⟨[], []⟩ :=
  ⟨rfl,
    (queries_miss_when_no_start_line_matches
      ⟨[], [("f.gdb".toList, "a \\\nb\n".toList)]⟩
      ⟨"f.gdb".toList, 5, 0⟩ "a \\\nb\n".toList rfl (by decide)).1 3,
    (queries_miss_when_no_start_line_matches
      ⟨[], [("f.gdb".toList, "a \\\nb\n".toList)]⟩
      ⟨"f.gdb".toList, 5, 0⟩ "a \\\nb\n".toList rfl (by decide)).2⟩

/-- Counterexample for C10 as stated: in
`define say_hi⏎end⏎x \⏎y⏎say_hi⏎` the physical line 3 (`y`) is a
continuation line of the logical line `x \⏎y`, yet a query at line 3
does not return nothing: the logical line `say_hi` is *numbered* 3 (the
segmenter numbers logical lines, not physical ones, after a
continuation), so `find_definition` resolves `say_hi` to `(0, 7)` and
`find_completions` returns the built-in keywords instead of the empty
set. -/
theorem continuation_line_query_can_resolve :
    find_definition_result
        ⟨[], [("f.gdb".toList,
          "define say_hi\nend\nx \\\ny\nsay_hi\n".toList)]⟩
        ⟨"f.gdb".toList, 3, 0⟩
        (some ⟨"f.gdb".toList, 0, 7⟩)
    ∧ find_completions
        ⟨[], [("f.gdb".toList,
          "define say_hi\nend\nx \\\ny\nsay_hi\n".toList)]⟩
        ⟨"f.gdb".toList, 3, 0⟩
      ≠ ⟨[], []⟩ := by
  constructor
  · have h : find_definition
        ⟨[], [("f.gdb".toList,
          "define say_hi\nend\nx \\\ny\nsay_hi\n".toList)]⟩ 1
        ⟨"f.gdb".toList, 3, 0⟩
        = some (some ⟨"f.gdb".toList, 0, 7⟩) := by decide
    exact ⟨1, h⟩
  · decide

end GdbDevtools
